import Mathlib

/-!
Verification of the document segmentation engine specified for the haystack
preprocessing tutorial repository.  The repository itself only contains the
tutorial driver (`tutorials/Tutorial8_Preprocessing.py`), which calls the
engine (`PreProcessor`) from the haystack library; the engine's own code is
not part of the sources.  Following the specification, the engine is
therefore modelled here from the specification's words: the Text Normalizer,
Sentence Segmenter, Word Tokenizer, Chunk Splitter and Document Assembler
(spec sections 4.1 to 4.5), together with the data model of section 3.

All text-level operations are written over `String.data` (lists of
characters) by structural recursion, so that every definition is executable
and kernel-reducible on concrete inputs.
-/

deriving instance DecidableEq for Except

namespace Haystack

/-- Modelled from the spec: Word Tokenizer (section 4.3), missing from the
repository sources.  Accumulator pass over the character list: `acc` holds the
(reversed) characters of the word currently being read; each maximal run of
non-whitespace characters becomes one word, whitespace is excluded. -/
def tokAux : List Char → List Char → List String
  | acc, [] => if acc.isEmpty then [] else [String.mk acc.reverse]
  | acc, c :: cs =>
    if c.isWhitespace then
      if acc.isEmpty then tokAux [] cs
      else String.mk acc.reverse :: tokAux [] cs
    else tokAux (c :: acc) cs

/-- Modelled from the spec: `tokenize(text) -> sequence of word units`
(section 4.3); each word is a maximal run of non-whitespace characters, in
left-to-right order. -/
def tokenize (s : String) : List String :=
  tokAux [] s.data

/-- Word count of a text span, via the Word Tokenizer (spec section 4.4:
"Word counting for the `length` budget always counts words via the Word
Tokenizer applied to the span's text"). -/
def wc (s : String) : Nat :=
  (tokenize s).length

/-- Cumulative word count of a sequence of sentence texts. -/
def wcOf (l : List String) : Nat :=
  (l.map wc).sum

/-- Join a list of words with single spaces (derivation of a word-mode
chunk's `content`, spec section 3: `content` is a derived string). -/
def joinWords : List String → String
  | [] => ""
  | [w] => w
  | w :: ws => w ++ " " ++ joinWords ws

/-- Concatenation of sentence-span texts (derivation of a sentence-mode
chunk's `content`; sentence spans cover the text exactly, whitespace
included, spec section 4.2, so plain concatenation is the derived text). -/
def joinAll : List String → String
  | [] => ""
  | [s] => s
  | s :: ss => s ++ joinAll ss

/-- The last `n` words of a word list (used to state the overlap claims). -/
def lastWords (n : Nat) (l : List String) : List String :=
  l.drop (l.length - n)

/-- Split a character list at newline characters; `acc` holds the (reversed)
characters of the current line.  Mirrors splitting a text into lines. -/
def splitNl : List Char → List Char → List String
  | acc, [] => [String.mk acc.reverse]
  | acc, c :: cs =>
    if c = '\n' then String.mk acc.reverse :: splitNl [] cs
    else splitNl (c :: acc) cs

/-- The lines of a text (delimited by `'\n'`). -/
def linesOf (s : String) : List String :=
  splitNl [] s.data

/-- Rejoin lines with single newline characters. -/
def joinLines : List String → String
  | [] => ""
  | [l] => l
  | l :: ls => l ++ "\n" ++ joinLines ls

/-- Strip leading and trailing whitespace from a character list. -/
def trimChars (l : List Char) : List Char :=
  ((l.dropWhile Char.isWhitespace).reverse.dropWhile Char.isWhitespace).reverse

/-- Strip leading and trailing whitespace of one line (spec section 4.1,
`clean_whitespace`). -/
def trimStr (s : String) : String :=
  String.mk (trimChars s.data)

/-- Modelled from the spec: the `clean_empty_lines` counting pass
(section 4.1), missing from the repository sources.  `k` counts the
consecutive empty lines seen immediately before the current position; an
empty line is dropped exactly when two empty lines directly precede it, so
any run of 3 or more empty lines collapses to exactly 2. -/
def collapseEmpty : Nat → List String → List String
  | _, [] => []
  | k, l :: ls =>
    if l = "" then
      if 2 ≤ k then collapseEmpty k ls
      else l :: collapseEmpty (k + 1) ls
    else l :: collapseEmpty 0 ls

/-- CleanConfig (spec section 3), with the caller-facing default values of
the configuration surface. -/
structure CleanConfig where
  cleanWhitespace : Bool := true
  cleanEmptyLines : Bool := true
  cleanHeaderFooter : Bool := false
deriving DecidableEq

/-- SplitConfig (spec section 3): `length` is the maximum units per chunk,
`overlap` the sliding-window overlap, `respectSentenceBoundary` selects the
splitting mode.  Defaults model the engine's default configuration (the
tutorial's default usage: word unit, length 100, overlap 0, boundaries
respected). -/
structure SplitConfig where
  length : Nat := 100
  overlap : Nat := 0
  respectSentenceBoundary : Bool := true
deriving DecidableEq

/-- SourceDocument (spec section 3): immutable input text plus opaque,
propagated metadata. -/
structure SourceDocument where
  text : String
  meta : List (String × String) := []
deriving DecidableEq

/-- Chunk (spec section 3): derived content string and its word count.  The
chunk's ordinal is its position in the returned sequence; the
`overlap_with_previous` bookkeeping field is not needed by any verified
property and is omitted. -/
structure Chunk where
  content : String
  wordCount : Nat
deriving DecidableEq

/-- OutputRecord (spec section 4.5): chunk content plus the source
document's propagated metadata. -/
structure OutputRecord where
  content : String
  meta : List (String × String)
deriving DecidableEq

/-- Error taxonomy of the engine (spec section 7). -/
inductive SplitError where
  | configError
  | inputError
deriving DecidableEq

/-- Modelled from the spec: Text Normalizer (section 4.1), missing from the
repository sources.  Per line whitespace stripping when `cleanWhitespace`,
then the empty-line counting pass when `cleanEmptyLines`.  Header/footer
removal is a no-op here: no page markers are supplied, and the spec states
that without page markers `clean_header_footer` returns its input
unchanged. -/
def normalize (cc : CleanConfig) (text : String) : String :=
  let ls := linesOf text
  let ls := if cc.cleanWhitespace then ls.map trimStr else ls
  let ls := if cc.cleanEmptyLines then collapseEmpty 0 ls else ls
  joinLines ls

/-- Modelled from the spec: default Sentence Segmenter (section 4.2),
missing from the repository sources.  The spec specifies only the contract
(total, deterministic, spans cover the text exactly in order) and allows
"worst case returns the whole text as one span"; that worst case is the
modelled default implementation.  The empty text is covered by zero
spans. -/
def segment (text : String) : List String :=
  if text = "" then [] else [text]

/-- Modelled from the spec: boundary-agnostic mode of the Chunk Splitter
(section 4.4, mode 1), missing from the repository sources.  Chunk `i`
(0-indexed) covers word indices `[i*(length-overlap), i*(length-overlap) +
length)` clipped to `[0, W)`; chunks are generated exactly while the start
index `i*(length-overlap)` is `< W`, i.e. for
`i < ceil(W / (length-overlap))`. -/
def splitWordsChunks (words : List String) (length overlap : Nat) : List (List String) :=
  (List.range ((words.length + (length - overlap) - 1) / (length - overlap))).map
    (fun i => (words.drop (i * (length - overlap))).take length)

/-- Longest trailing segment of `chunk` whose cumulative word count is at
most `overlap` (helper for the sentence-mode overlap seed). -/
def seedSuffix (overlap : Nat) : List String → List String
  | [] => []
  | s :: t => if wcOf (s :: t) ≤ overlap then s :: t else seedSuffix overlap t

/-- Modelled from the spec: the sentence-mode overlap seed (section 4.4,
mode 2), missing from the repository sources.  The trailing whole sentences
of a closed chunk whose cumulative word count is the largest value at most
`overlap`; when `overlap = 0` no seeding occurs. -/
def seedOf (overlap : Nat) (chunk : List String) : List String :=
  if overlap = 0 then [] else seedSuffix overlap chunk

/-- Modelled from the spec: boundary-respecting mode of the Chunk Splitter
(section 4.4, mode 2), missing from the repository sources.  Whole sentences
are accumulated greedily into `current` while the running word count stays
within `length`; a sentence that would exceed the budget closes the current
chunk (the next chunk is opened with the overlap seed and the pending
sentence), and a sentence arriving at an empty chunk while alone exceeding
the budget is emitted alone as an over-length chunk. -/
def splitSentences (length overlap : Nat) : List String → List String → List (List String)
  | current, [] => if current.isEmpty then [] else [current]
  | current, s :: rest =>
    if wcOf current + wc s ≤ length then
      splitSentences length overlap (current ++ [s]) rest
    else if current.isEmpty then
      [s] :: splitSentences length overlap [] rest
    else
      current :: splitSentences length overlap (seedOf overlap current ++ [s]) rest

/-- The chunk records produced by the splitter for one (already normalized)
text: word mode slices the tokenized word sequence, sentence mode groups the
supplied sentence spans. -/
def splitPieces (cfg : SplitConfig) (text : String) (sentences : List String) : List Chunk :=
  if cfg.respectSentenceBoundary then
    (splitSentences cfg.length cfg.overlap [] sentences).map
      (fun p => { content := joinAll p, wordCount := wcOf p })
  else
    (splitWordsChunks (tokenize text) cfg.length cfg.overlap).map
      (fun p => { content := joinWords p, wordCount := p.length })

/-- Modelled from the spec: the Chunk Splitter's contract
`split(text, config, sentences) -> sequence of Chunk` with its error
conditions (sections 4.4 and 7), missing from the repository sources.  The
configuration is validated at call entry: `ConfigError` exactly when
`length <= 0` or `overlap >= length`, before any text is processed.
`InputError` is reserved for malformed text encoding, which cannot occur
for the (always valid) strings of this model, so it is never returned. -/
def split (cfg : SplitConfig) (text : String) (sentences : List String) :
    Except SplitError (List Chunk) :=
  if cfg.length = 0 ∨ cfg.length ≤ cfg.overlap then .error .configError
  else .ok (splitPieces cfg text sentences)

/-- Modelled from the spec: Document Assembler (section 4.5) together with
the empty-document boundary rule (section 3: an empty source document emits
exactly one empty chunk), missing from the repository sources.  Each chunk
is wrapped into an output record carrying the source document's metadata. -/
def assembleDoc (doc : SourceDocument) (chunks : List Chunk) : List OutputRecord :=
  if doc.text = "" then [{ content := "", meta := doc.meta }]
  else chunks.map (fun c => { content := c.content, meta := doc.meta })

/-- Modelled from the spec: the full engine pipeline `normalize -> segment
-> split -> assemble` (section 2 control flow), missing from the repository
sources. -/
def process (cc : CleanConfig) (cfg : SplitConfig) (doc : SourceDocument) :
    Except SplitError (List OutputRecord) :=
  let t := normalize cc doc.text
  (split cfg t (segment t)).map (assembleDoc doc)

/-- Empty-run / line alternation constructor used to state the empty-line
collapse claim: `buildLines rs t` is the line list consisting, for each pair
`(k, l)` in `rs`, of `k` empty lines followed by the (non-empty) line `l`,
and finally `t` trailing empty lines.  Every line list arises this way. -/
def buildLines : List (Nat × String) → Nat → List String
  | [], t => List.replicate t ""
  | (k, l) :: rs, t => List.replicate k "" ++ l :: buildLines rs t

/-- Pairwise overlap-seeding relation on a sentence-mode chunk sequence:
each chunk after the first begins with the overlap seed of its
predecessor. -/
def seedBridge (overlap : Nat) : List (List String) → Prop
  | [] => True
  | [_] => True
  | a :: b :: t =>
    b.take (seedOf overlap a).length = seedOf overlap a ∧ seedBridge overlap (b :: t)

/-! ### Word-mode (boundary-agnostic) splitter -/

theorem getD_range_map (f : Nat → List String) (n i : Nat) (h : i < n) :
    ((List.range n).map f).getD i [] = f i := by
  rw [List.getD_eq_getElem?_getD, List.getElem?_map, List.getElem?_range h]
  rfl

theorem lt_numChunks_iff (W step i : Nat) (h : 0 < step) :
    i < (W + step - 1) / step ↔ i * step < W := by
  rw [Nat.lt_iff_add_one_le, Nat.le_div_iff_mul_le h, Nat.add_mul, Nat.one_mul]
  omega

theorem length_splitWordsChunks (words : List String) (L O : Nat) :
    (splitWordsChunks words L O).length
      = (words.length + (L - O) - 1) / (L - O) := by
  simp [splitWordsChunks]

theorem getD_splitWordsChunks (words : List String) (L O i : Nat) (hO : O < L)
    (hi : i * (L - O) < words.length) :
    (splitWordsChunks words L O).getD i [] = (words.drop (i * (L - O))).take L := by
  have hstep : 0 < L - O := by omega
  exact getD_range_map _ _ i ((lt_numChunks_iff words.length (L - O) i hstep).mpr hi)

/-- C1 (amended): in boundary-agnostic mode, for every word sequence and
every valid config, chunk `i` covers exactly the word indices
`[i*(length-overlap), i*(length-overlap)+length)` clipped to `[0, W)`, and a
chunk is generated exactly while its start index `i*(length-overlap)` is
`< W`; consequently chunk `i` has exactly `min length (W - i*(length-overlap))`
words, so every chunk whose start leaves at least `length` words has exactly
`length` words and later chunks are shorter. -/
theorem boundary_agnostic_window (words : List String) (L O : Nat)
    (hL : 0 < L) (hO : O < L) :
    (splitWordsChunks words L O).length = (words.length + (L - O) - 1) / (L - O)
    ∧ (∀ i : Nat, i < (splitWordsChunks words L O).length ↔ i * (L - O) < words.length)
    ∧ (∀ i : Nat, i * (L - O) < words.length →
        (splitWordsChunks words L O).getD i [] = (words.drop (i * (L - O))).take L)
    ∧ (∀ i : Nat, i * (L - O) < words.length →
        ((splitWordsChunks words L O).getD i []).length
          = min L (words.length - i * (L - O))) := by
  have hstep : 0 < L - O := by omega
  refine ⟨length_splitWordsChunks words L O, fun i => ?_,
    fun i hi => getD_splitWordsChunks words L O i hO hi, fun i hi => ?_⟩
  · rw [length_splitWordsChunks]
    exact lt_numChunks_iff words.length (L - O) i hstep
  · rw [getD_splitWordsChunks words L O i hO hi]
    simp

/-- C1 counterexample: with 8 words, `length = 10`, `overlap = 3`, the model
produces two chunks, the first covering words `[0, 8)` (8 words, not
`length`) even though it is not the last chunk; so "every chunk except
possibly the last has exactly `length` words" fails. -/
theorem boundary_agnostic_window_cex :
    ¬ (∀ i : Nat,
        i + 1 < (splitWordsChunks ["a","b","c","d","e","f","g","h"] 10 3).length →
        ((splitWordsChunks ["a","b","c","d","e","f","g","h"] 10 3).getD i []).length
          = 10) := by
  intro h
  exact absurd (h 0 (by decide)) (by decide)

theorem boundary_agnostic_window_witness :
    (splitWordsChunks (List.replicate 24 "w") 10 3).length = 4
    ∧ (splitWordsChunks (List.replicate 24 "w") 10 3).getD 2 []
        = ((List.replicate 24 "w").drop 14).take 10 := by
  have h := boundary_agnostic_window (List.replicate 24 "w") 10 3 (by decide) (by decide)
  refine ⟨?_, ?_⟩
  · rw [h.1]; decide
  · exact h.2.2.1 2 (by decide)

/-- C3 (amended): in boundary-agnostic mode with `overlap > 0`, whenever
chunk `i` has exactly `length` words (its window is not clipped by the end
of the document), its last `overlap` words equal, word for word, the first
`overlap` words of chunk `i+1`. -/
theorem overlap_exactness (words : List String) (L O i : Nat)
    (hL : 0 < L) (hO : O < L) (hOpos : 0 < O)
    (hfull : ((splitWordsChunks words L O).getD i []).length = L)
    (hnext : i + 1 < (splitWordsChunks words L O).length) :
    lastWords O ((splitWordsChunks words L O).getD i [])
      = ((splitWordsChunks words L O).getD (i + 1) []).take O := by
  have hstep : 0 < L - O := by omega
  rw [length_splitWordsChunks] at hnext
  have hn1 : (i + 1) * (L - O) < words.length :=
    (lt_numChunks_iff words.length (L - O) (i + 1) hstep).mp hnext
  have hi : i * (L - O) < words.length :=
    Nat.lt_of_le_of_lt (Nat.mul_le_mul_right (L - O) (Nat.le_succ i)) hn1
  rw [getD_splitWordsChunks words L O i hO hi,
      getD_splitWordsChunks words L O (i + 1) hO hn1] at *
  simp only [lastWords, hfull]
  rw [List.drop_take, List.drop_drop, List.take_take]
  have e1 : L - (L - O) = O := by omega
  have e2 : i * (L - O) + (L - O) = (i + 1) * (L - O) := by ring
  have e3 : min O L = O := Nat.min_eq_left (by omega)
  rw [e1, e2, e3]

/-- C3 counterexample: with 8 words, `length = 10`, `overlap = 3`, chunk 0
covers words `[0, 8)` and chunk 1 covers `[7, 8)`; the last 3 words of chunk
0 are the three words `f g h` while the first 3 words of chunk 1 are the
single word `h`, so the claimed word-for-word overlap equality fails. -/
theorem overlap_exactness_cex :
    ¬ (∀ i : Nat, 0 < i →
        i < (splitWordsChunks ["a","b","c","d","e","f","g","h"] 10 3).length →
        lastWords 3 ((splitWordsChunks ["a","b","c","d","e","f","g","h"] 10 3).getD (i - 1) [])
          = ((splitWordsChunks ["a","b","c","d","e","f","g","h"] 10 3).getD i []).take 3) := by
  intro h
  exact absurd (h 1 (by decide) (by decide)) (by decide)

theorem overlap_exactness_witness :
    lastWords 3 ((splitWordsChunks (List.replicate 24 "w") 10 3).getD 0 [])
      = ((splitWordsChunks (List.replicate 24 "w") 10 3).getD 1 []).take 3 :=
  overlap_exactness (List.replicate 24 "w") 10 3 0 (by decide) (by decide) (by decide)
    (by decide) (by decide)

/-! ### Words, joining and the tokenizer round trip -/

theorem wcOf_nil : wcOf [] = 0 := rfl

theorem wcOf_cons (s : String) (l : List String) : wcOf (s :: l) = wc s + wcOf l := by
  simp [wcOf]

theorem wcOf_append (a b : List String) : wcOf (a ++ b) = wcOf a + wcOf b := by
  simp [wcOf]

theorem wc_mem_le (s : String) (l : List String) (h : s ∈ l) : wc s ≤ wcOf l := by
  induction l with
  | nil => cases h
  | cons a t ih =>
    rw [wcOf_cons]
    rcases List.mem_cons.mp h with h1 | h1
    · subst h1
      exact Nat.le_add_right _ _
    · exact Nat.le_trans (ih h1) (Nat.le_add_left _ _)

theorem wcOf_drop_le (l : List String) (n : Nat) : wcOf (l.drop n) ≤ wcOf l := by
  induction l generalizing n with
  | nil => simp
  | cons a t ih =>
    cases n with
    | zero => simp
    | succ m =>
      rw [List.drop_succ_cons, wcOf_cons]
      exact Nat.le_trans (ih m) (Nat.le_add_left _ _)

theorem joinWords_cons (w : String) (ws : List String) (h : ws ≠ []) :
    joinWords (w :: ws) = w ++ " " ++ joinWords ws := by
  cases ws with
  | nil => exact absurd rfl h
  | cons a t => rfl

theorem joinWords_append (xs ys : List String) (hx : xs ≠ []) (hy : ys ≠ []) :
    joinWords (xs ++ ys) = joinWords xs ++ " " ++ joinWords ys := by
  induction xs with
  | nil => exact absurd rfl hx
  | cons x t ih =>
    cases t with
    | nil =>
      rw [List.singleton_append, joinWords_cons x ys hy]
      rfl
    | cons b u =>
      rw [List.cons_append, joinWords_cons x ((b :: u) ++ ys) (by simp),
          ih (by simp), joinWords_cons x (b :: u) (by simp)]
      simp [String.append_assoc]

theorem joinWords_flatten (ps : List (List String)) (h : ∀ p ∈ ps, p ≠ []) :
    joinWords (ps.map joinWords) = joinWords ps.flatten := by
  induction ps with
  | nil => rfl
  | cons p t ih =>
    cases t with
    | nil => simp [joinWords]
    | cons q u =>
      have hp : p ≠ [] := h p (by simp)
      have hfl : (q :: u).flatten ≠ [] := by
        have hq : q ≠ [] := h q (by simp)
        simp only [List.flatten_cons]
        cases q with
        | nil => exact absurd rfl hq
        | cons a b => simp
      rw [List.flatten_cons, joinWords_append p ((q :: u).flatten) hp hfl,
          ← ih (fun r hr => h r (by simp [hr])), List.map_cons,
          joinWords_cons _ _ (by simp)]

theorem mk_data (s : String) : String.mk s.data = s := rfl

theorem string_ne_empty_of_data (s : String) (h : s.data ≠ []) : s ≠ "" := by
  intro e
  rw [e] at h
  exact h rfl

theorem tokAux_final (acc : List Char) (h : acc ≠ []) :
    tokAux acc [] = [String.mk acc.reverse] := by
  cases acc with
  | nil => exact absurd rfl h
  | cons a u => rfl

theorem tokAux_words (cs : List Char) :
    ∀ acc : List Char, (∀ c ∈ acc, c.isWhitespace = false) →
      ∀ w ∈ tokAux acc cs, w.data ≠ [] ∧ ∀ c ∈ w.data, c.isWhitespace = false := by
  induction cs with
  | nil =>
    intro acc hacc w hw
    cases acc with
    | nil => simp [tokAux] at hw
    | cons a u =>
      rw [tokAux_final (a :: u) (by simp)] at hw
      rcases List.mem_singleton.mp hw with rfl
      refine ⟨by simp [mk_data], fun x hx => hacc x (List.mem_reverse.mp hx)⟩
  | cons c cs ih =>
    intro acc hacc w hw
    by_cases hws : c.isWhitespace
    · cases acc with
      | nil =>
        rw [show tokAux [] (c :: cs) = tokAux [] cs by simp [tokAux, hws]] at hw
        exact ih [] (by simp) w hw
      | cons a u =>
        rw [show tokAux (a :: u) (c :: cs)
              = String.mk (a :: u).reverse :: tokAux [] cs by simp [tokAux, hws]] at hw
        rcases List.mem_cons.mp hw with rfl | hw2
        · refine ⟨by simp, fun x hx => hacc x (List.mem_reverse.mp hx)⟩
        · exact ih [] (by simp) w hw2
    · rw [show tokAux acc (c :: cs) = tokAux (c :: acc) cs by simp [tokAux, hws]] at hw
      refine ih (c :: acc) ?_ w hw
      intro x hx
      rcases List.mem_cons.mp hx with rfl | hx2
      · simpa using hws
      · exact hacc x hx2

theorem words_of_tokenize (t : String) :
    ∀ w ∈ tokenize t, w.data ≠ [] ∧ ∀ c ∈ w.data, c.isWhitespace = false :=
  tokAux_words t.data [] (by simp)

theorem tokAux_chunk (w : List Char) (hw : ∀ c ∈ w, c.isWhitespace = false) :
    ∀ acc cs, tokAux acc (w ++ cs) = tokAux (w.reverse ++ acc) cs := by
  induction w with
  | nil => intro acc cs; rfl
  | cons c t ih =>
    intro acc cs
    have hc : c.isWhitespace = false := hw c (by simp)
    rw [List.cons_append,
        show tokAux acc (c :: (t ++ cs)) = tokAux (c :: acc) (t ++ cs) by
          simp [tokAux, hc],
        ih (fun x hx => hw x (by simp [hx])) (c :: acc) cs]
    simp

theorem tokAux_space (acc cs : List Char) (h : acc ≠ []) :
    tokAux acc (' ' :: cs) = String.mk acc.reverse :: tokAux [] cs := by
  cases acc with
  | nil => exact absurd rfl h
  | cons a u => simp [tokAux, show (' ').isWhitespace = true from rfl]

theorem reverse_data_ne (w : String) (h : w.data ≠ []) : w.data.reverse ≠ [] := by
  intro hx
  exact h (by simpa using congrArg List.reverse hx)

theorem tokenize_joinWords (ws : List String)
    (h : ∀ w ∈ ws, w.data ≠ [] ∧ ∀ c ∈ w.data, c.isWhitespace = false) :
    tokenize (joinWords ws) = ws := by
  induction ws with
  | nil => rfl
  | cons w t ih =>
    have hw := h w (by simp)
    cases t with
    | nil =>
      show tokAux [] (joinWords [w]).data = [w]
      have e := tokAux_chunk w.data hw.2 [] []
      rw [List.append_nil, List.append_nil] at e
      rw [show (joinWords [w]).data = w.data from rfl, e,
          tokAux_final _ (reverse_data_ne w hw.1), List.reverse_reverse, mk_data]
    | cons b u =>
      rw [joinWords_cons w (b :: u) (by simp)]
      show tokAux [] ((w ++ " " ++ joinWords (b :: u)).data) = w :: b :: u
      rw [String.data_append, String.data_append,
          show (" ").data = [' '] from rfl, List.append_assoc, List.singleton_append]
      have e := tokAux_chunk w.data hw.2 [] (' ' :: (joinWords (b :: u)).data)
      rw [List.append_nil] at e
      rw [e, tokAux_space _ _ (reverse_data_ne w hw.1), List.reverse_reverse, mk_data]
      show w :: tokenize (joinWords (b :: u)) = w :: b :: u
      rw [ih (fun x hx => h x (by simp [hx]))]

theorem tokenize_joinWords_tokenize (t : String) :
    tokenize (joinWords (tokenize t)) = tokenize t :=
  tokenize_joinWords (tokenize t) (words_of_tokenize t)

theorem joinWords_ne_empty (w : String) (ws : List String) (h : w.data ≠ []) :
    joinWords (w :: ws) ≠ "" := by
  cases ws with
  | nil => exact string_ne_empty_of_data w h
  | cons b u =>
    rw [joinWords_cons w (b :: u) (by simp)]
    apply string_ne_empty_of_data
    rw [String.data_append, String.data_append]
    intro hnil
    rcases List.append_eq_nil.mp (List.append_eq_nil.mp hnil).1 with ⟨h1, _⟩
    exact h h1

/-! ### Lines and the empty-line collapse -/

theorem joinLines_cons (l : String) (ls : List String) (h : ls ≠ []) :
    joinLines (l :: ls) = l ++ "\n" ++ joinLines ls := by
  cases ls with
  | nil => exact absurd rfl h
  | cons a t => rfl

theorem splitNl_chunk (w : List Char) (hw : ∀ c ∈ w, c ≠ '\n') :
    ∀ acc cs, splitNl acc (w ++ cs) = splitNl (w.reverse ++ acc) cs := by
  induction w with
  | nil => intro acc cs; rfl
  | cons c t ih =>
    intro acc cs
    have hc : c ≠ '\n' := hw c (by simp)
    rw [List.cons_append,
        show splitNl acc (c :: (t ++ cs)) = splitNl (c :: acc) (t ++ cs) by
          simp [splitNl, hc],
        ih (fun x hx => hw x (by simp [hx])) (c :: acc) cs]
    simp

theorem splitNl_nl (acc cs : List Char) :
    splitNl acc ('\n' :: cs) = String.mk acc.reverse :: splitNl [] cs := by
  simp [splitNl]

theorem linesOf_joinLines (ls : List String) (h : ls ≠ [])
    (hnl : ∀ l ∈ ls, ∀ c ∈ l.data, c ≠ '\n') :
    linesOf (joinLines ls) = ls := by
  induction ls with
  | nil => exact absurd rfl h
  | cons l t ih =>
    have hl := hnl l (by simp)
    cases t with
    | nil =>
      show splitNl [] (joinLines [l]).data = [l]
      have e := splitNl_chunk l.data hl [] []
      rw [List.append_nil, List.append_nil] at e
      rw [show (joinLines [l]).data = l.data from rfl, e]
      show [String.mk l.data.reverse.reverse] = [l]
      rw [List.reverse_reverse, mk_data]
    | cons b u =>
      rw [joinLines_cons l (b :: u) (by simp)]
      show splitNl [] ((l ++ "\n" ++ joinLines (b :: u)).data) = l :: b :: u
      rw [String.data_append, String.data_append,
          show ("\n").data = ['\n'] from rfl, List.append_assoc, List.singleton_append]
      have e := splitNl_chunk l.data hl [] ('\n' :: (joinLines (b :: u)).data)
      rw [List.append_nil] at e
      rw [e, splitNl_nl, List.reverse_reverse, mk_data]
      show l :: linesOf (joinLines (b :: u)) = l :: b :: u
      rw [ih (by simp) (fun x hx => hnl x (by simp [hx]))]

theorem collapseEmpty_replicate (m : Nat) :
    ∀ k rest, k ≤ 2 →
      collapseEmpty k (List.replicate m "" ++ rest)
        = List.replicate (min m (2 - k)) "" ++ collapseEmpty (min 2 (k + m)) rest := by
  induction m with
  | zero =>
    intro k rest hk
    have e : min 2 k = k := by omega
    simp [e]
  | succ n ihm =>
    intro k rest hk
    rw [List.replicate_succ, List.cons_append]
    by_cases h2 : 2 ≤ k
    · rw [show collapseEmpty k ("" :: (List.replicate n "" ++ rest))
            = collapseEmpty k (List.replicate n "" ++ rest) by simp [collapseEmpty, h2],
          ihm k rest hk]
      have e1 : min (n + 1) (2 - k) = 0 := by omega
      have e2 : min n (2 - k) = 0 := by omega
      have e3 : min 2 (k + n) = min 2 (k + (n + 1)) := by omega
      rw [e1, e2, e3]
    · rw [show collapseEmpty k ("" :: (List.replicate n "" ++ rest))
            = "" :: collapseEmpty (k + 1) (List.replicate n "" ++ rest) by
            simp [collapseEmpty, h2],
          ihm (k + 1) rest (by omega)]
      have e1 : min (n + 1) (2 - k) = min n (2 - (k + 1)) + 1 := by omega
      have e2 : min 2 (k + 1 + n) = min 2 (k + (n + 1)) := by omega
      rw [e1, e2, List.replicate_succ, List.cons_append]

theorem collapseEmpty_cons_ne (l : String) (hl : l ≠ "") (k : Nat) (rest : List String) :
    collapseEmpty k (l :: rest) = l :: collapseEmpty 0 rest := by
  simp [collapseEmpty, hl]

theorem collapseEmpty_buildLines (rs : List (Nat × String)) (t : Nat)
    (h : ∀ p ∈ rs, p.2 ≠ "") :
    collapseEmpty 0 (buildLines rs t)
      = buildLines (rs.map fun p => (min p.1 2, p.2)) (min t 2) := by
  induction rs with
  | nil =>
    show collapseEmpty 0 (List.replicate t "") = List.replicate (min t 2) ""
    have e := collapseEmpty_replicate t 0 [] (by omega)
    rw [List.append_nil] at e
    rw [e, show collapseEmpty (min 2 (0 + t)) [] = [] from rfl, List.append_nil,
        show min t (2 - 0) = min t 2 by omega]
  | cons p rs ih =>
    obtain ⟨k, l⟩ := p
    show collapseEmpty 0 (List.replicate k "" ++ (l :: buildLines rs t)) = _
    rw [collapseEmpty_replicate k 0 _ (by omega),
        collapseEmpty_cons_ne l (h (k, l) (by simp)) _ _,
        ih (fun q hq => h q (by simp [hq])),
        show min k (2 - 0) = min k 2 by omega]
    rfl

theorem buildLines_no_nl (rs : List (Nat × String)) (t : Nat)
    (h : ∀ p ∈ rs, ∀ c ∈ p.2.data, c ≠ '\n') :
    ∀ l ∈ buildLines rs t, ∀ c ∈ l.data, c ≠ '\n' := by
  induction rs with
  | nil =>
    intro l hl
    rw [List.eq_of_mem_replicate hl]
    intro c hc
    simp at hc
  | cons p rs ih =>
    obtain ⟨k, l'⟩ := p
    intro l hl
    rcases List.mem_append.mp hl with h1 | h1
    · rw [List.eq_of_mem_replicate h1]
      intro c hc
      simp at hc
    · rcases List.mem_cons.mp h1 with rfl | h2
      · exact h (k, l) (by simp)
      · exact ih (fun q hq => h q (by simp [hq])) l h2

theorem buildLines_ne_nil (rs : List (Nat × String)) (t : Nat)
    (h : rs ≠ [] ∨ 0 < t) : buildLines rs t ≠ [] := by
  cases rs with
  | nil =>
    rcases h with h1 | h1
    · exact absurd rfl h1
    · intro hx
      have hx' : List.replicate t "" = ([] : List String) := hx
      have ht := congrArg List.length hx'
      simp at ht <;> omega
  | cons p rs =>
    obtain ⟨k, l⟩ := p
    intro hx
    have hx' : List.replicate k "" ++ (l :: buildLines rs t) = ([] : List String) := hx
    have ht := congrArg List.length hx'
    simp at ht <;> omega

/-! ### Sentence-mode splitter -/

theorem seedSuffix_wc_le (O : Nat) (chunk : List String) :
    wcOf (seedSuffix O chunk) ≤ O := by
  induction chunk with
  | nil => simp [seedSuffix, wcOf_nil]
  | cons s t ih =>
    by_cases hc : wcOf (s :: t) ≤ O
    · rw [show seedSuffix O (s :: t) = s :: t by simp [seedSuffix, hc]]
      exact hc
    · rw [show seedSuffix O (s :: t) = seedSuffix O t by simp [seedSuffix, hc]]
      exact ih

theorem seedOf_wc_le (O : Nat) (chunk : List String) : wcOf (seedOf O chunk) ≤ O := by
  by_cases h0 : O = 0
  · simp [seedOf, h0, wcOf_nil]
  · rw [show seedOf O chunk = seedSuffix O chunk by simp [seedOf, h0]]
    exact seedSuffix_wc_le O chunk

theorem seedSuffix_suffix (O : Nat) :
    ∀ chunk : List String, ∃ u, chunk = u ++ seedSuffix O chunk := by
  intro chunk
  induction chunk with
  | nil => exact ⟨[], rfl⟩
  | cons s t ih =>
    by_cases hc : wcOf (s :: t) ≤ O
    · exact ⟨[], by simp [seedSuffix, hc]⟩
    · obtain ⟨u, hu⟩ := ih
      refine ⟨s :: u, ?_⟩
      rw [show seedSuffix O (s :: t) = seedSuffix O t by simp [seedSuffix, hc],
          List.cons_append, ← hu]

theorem seedOf_suffix (O : Nat) (chunk : List String) :
    ∃ u, chunk = u ++ seedOf O chunk := by
  by_cases h0 : O = 0
  · exact ⟨chunk, by simp [seedOf, h0]⟩
  · rw [show seedOf O chunk = seedSuffix O chunk by simp [seedOf, h0]]
    exact seedSuffix_suffix O chunk

theorem seedSuffix_max (O : Nat) :
    ∀ (chunk : List String) (n : Nat), wcOf (chunk.drop n) ≤ O →
      wcOf (chunk.drop n) ≤ wcOf (seedSuffix O chunk) := by
  intro chunk
  induction chunk with
  | nil =>
    intro n _
    rw [List.drop_nil]
    exact Nat.le_refl _
  | cons s t ih =>
    intro n hn
    by_cases hc : wcOf (s :: t) ≤ O
    · rw [show seedSuffix O (s :: t) = s :: t by simp [seedSuffix, hc]]
      exact wcOf_drop_le (s :: t) n
    · rw [show seedSuffix O (s :: t) = seedSuffix O t by simp [seedSuffix, hc]]
      cases n with
      | zero => exact absurd hn hc
      | succ m =>
        rw [List.drop_succ_cons] at hn ⊢
        exact ih m hn

theorem seedOf_max (O : Nat) (chunk : List String) (n : Nat)
    (h : wcOf (chunk.drop n) ≤ O) :
    wcOf (chunk.drop n) ≤ wcOf (seedOf O chunk) := by
  by_cases h0 : O = 0
  · subst h0
    exact h
  · rw [show seedOf O chunk = seedSuffix O chunk by simp [seedOf, h0]]
    exact seedSuffix_max O chunk n h

theorem seedOf_zero (chunk : List String) : seedOf 0 chunk = [] := rfl

theorem seedOf_oversized (O L : Nat) (s : String) (hO : O < L) (hs : L < wc s) :
    seedOf O [s] = [] := by
  by_cases h0 : O = 0
  · simp [seedOf, h0]
  · rw [show seedOf O [s] = seedSuffix O [s] by simp [seedOf, h0]]
    have hno : ¬ (wcOf [s] ≤ O) := by
      rw [wcOf_cons, wcOf_nil]
      omega
    simp [seedSuffix, hno]

theorem ss_fit (L O : Nat) (current : List String) (s : String) (rest : List String)
    (h : wcOf current + wc s ≤ L) :
    splitSentences L O current (s :: rest) = splitSentences L O (current ++ [s]) rest := by
  simp [splitSentences, h]

theorem ss_over (L O : Nat) (s : String) (rest : List String)
    (h : ¬ (wcOf [] + wc s ≤ L)) :
    splitSentences L O [] (s :: rest) = [s] :: splitSentences L O [] rest := by
  simp [splitSentences, h]

theorem ss_close (L O : Nat) (current : List String) (s : String) (rest : List String)
    (hno : ¬ (wcOf current + wc s ≤ L)) (hne : current ≠ []) :
    splitSentences L O current (s :: rest)
      = current :: splitSentences L O (seedOf O current ++ [s]) rest := by
  have he : current.isEmpty = false := by
    cases current with
    | nil => exact absurd rfl hne
    | cons a t => rfl
  simp [splitSentences, hno, he]

theorem ss_mem_block (L O : Nat) (rest : List String) :
    ∀ current, ∀ c ∈ splitSentences L O current rest,
      ∃ p q, current ++ rest = p ++ c ++ q := by
  induction rest with
  | nil =>
    intro current c hc
    cases current with
    | nil => simp [splitSentences] at hc
    | cons a t =>
      rw [show splitSentences L O (a :: t) [] = [a :: t] from rfl] at hc
      rcases List.mem_singleton.mp hc with rfl
      exact ⟨[], [], by simp⟩
  | cons s rest ih =>
    intro current c hc
    by_cases hfit : wcOf current + wc s ≤ L
    · rw [ss_fit L O current s rest hfit] at hc
      obtain ⟨p, q, hpq⟩ := ih (current ++ [s]) c hc
      exact ⟨p, q, by rw [← hpq]; simp⟩
    · cases current with
      | nil =>
        rw [ss_over L O s rest hfit] at hc
        rcases List.mem_cons.mp hc with rfl | h2
        · exact ⟨[], rest, by simp⟩
        · obtain ⟨p, q, hpq⟩ := ih [] c h2
          rw [List.nil_append] at hpq
          exact ⟨s :: p, q, by rw [List.nil_append, hpq]; simp⟩
      | cons a t =>
        rw [ss_close L O (a :: t) s rest hfit (by simp)] at hc
        rcases List.mem_cons.mp hc with rfl | h2
        · exact ⟨[], s :: rest, rfl⟩
        · obtain ⟨p, q, hpq⟩ := ih (seedOf O (a :: t) ++ [s]) c h2
          obtain ⟨u, hu⟩ := seedOf_suffix O (a :: t)
          refine ⟨u ++ p, q, ?_⟩
          calc (a :: t) ++ s :: rest
              = (u ++ seedOf O (a :: t)) ++ s :: rest := by rw [← hu]
            _ = u ++ ((seedOf O (a :: t) ++ [s]) ++ rest) := by simp
            _ = u ++ (p ++ c ++ q) := by rw [hpq]
            _ = (u ++ p) ++ c ++ q := by simp

theorem ss_alone_zero (L : Nat) (rest : List String) :
    ∀ current, (∀ s ∈ current, L < wc s → current = [s]) →
      ∀ c ∈ splitSentences L 0 current rest, ∀ s ∈ c, L < wc s → c = [s] := by
  induction rest with
  | nil =>
    intro current hP c hc s hs hbig
    cases current with
    | nil => simp [splitSentences] at hc
    | cons a t =>
      rw [show splitSentences L 0 (a :: t) [] = [a :: t] from rfl] at hc
      rcases List.mem_singleton.mp hc with rfl
      exact hP s hs hbig
  | cons s0 rest ih =>
    intro current hP c hc s hs hbig
    by_cases hfit : wcOf current + wc s0 ≤ L
    · refine ih (current ++ [s0]) ?_ c (by rwa [ss_fit L 0 current s0 rest hfit] at hc) s hs hbig
      intro x hx hxbig
      exfalso
      have hle := wc_mem_le x _ hx
      rw [wcOf_append, wcOf_cons, wcOf_nil] at hle
      omega
    · cases current with
      | nil =>
        rw [ss_over L 0 s0 rest hfit] at hc
        rcases List.mem_cons.mp hc with rfl | h2
        · rcases List.mem_singleton.mp hs with rfl
          rfl
        · exact ih [] (by simp) c h2 s hs hbig
      | cons a t =>
        rw [ss_close L 0 (a :: t) s0 rest hfit (by simp)] at hc
        rcases List.mem_cons.mp hc with rfl | h2
        · exact hP s hs hbig
        · refine ih (seedOf 0 (a :: t) ++ [s0]) ?_ c h2 s hs hbig
          rw [seedOf_zero, List.nil_append]
          intro x hx hxbig
          rcases List.mem_singleton.mp hx with rfl
          rfl

theorem ss_single (L O : Nat) (s : String) :
    splitSentences L O [] [s] = [[s]] := by
  by_cases hfit : wcOf [] + wc s ≤ L
  · rw [ss_fit L O [] s [] hfit]
    rfl
  · rw [ss_over L O s [] hfit]
    rfl

theorem ss_head (L O : Nat) (rest : List String) :
    ∀ current, splitSentences L O current rest = []
      ∨ ∃ e tl, splitSentences L O current rest = (current ++ e) :: tl := by
  induction rest with
  | nil =>
    intro current
    cases current with
    | nil => exact Or.inl rfl
    | cons a t => exact Or.inr ⟨[], [], by simp [splitSentences]⟩
  | cons s rest ih =>
    intro current
    by_cases hfit : wcOf current + wc s ≤ L
    · rw [ss_fit L O current s rest hfit]
      rcases ih (current ++ [s]) with h | ⟨e, tl, h⟩
      · exact Or.inl h
      · exact Or.inr ⟨[s] ++ e, tl, by rw [h]; simp⟩
    · cases current with
      | nil =>
        rw [ss_over L O s rest hfit]
        exact Or.inr ⟨[s], splitSentences L O [] rest, by simp⟩
      | cons a t =>
        rw [ss_close L O (a :: t) s rest hfit (by simp)]
        exact Or.inr ⟨[], splitSentences L O (seedOf O (a :: t) ++ [s]) rest, by simp⟩

theorem ss_seedBridge (L O : Nat) (hO : O < L) (rest : List String) :
    ∀ current, seedBridge O (splitSentences L O current rest) := by
  induction rest with
  | nil =>
    intro current
    cases current with
    | nil => simp [splitSentences, seedBridge]
    | cons a t => simp [splitSentences, seedBridge]
  | cons s rest ih =>
    intro current
    by_cases hfit : wcOf current + wc s ≤ L
    · rw [ss_fit L O current s rest hfit]
      exact ih (current ++ [s])
    · cases current with
      | nil =>
        rw [ss_over L O s rest hfit]
        rcases ss_head L O rest [] with h | ⟨e, tl, h⟩
        · rw [h]
          simp [seedBridge]
        · rw [h]
          have hbig : L < wc s := by
            rw [wcOf_nil] at hfit
            omega
          refine ⟨?_, ?_⟩
          · rw [seedOf_oversized O L s hO hbig]
            simp
          · rw [← h]
            exact ih []
      | cons a t =>
        rw [ss_close L O (a :: t) s rest hfit (by simp)]
        rcases ss_head L O rest (seedOf O (a :: t) ++ [s]) with h | ⟨e, tl, h⟩
        · rw [h]
          simp [seedBridge]
        · rw [h]
          refine ⟨?_, ?_⟩
          · rw [List.append_assoc]
            exact List.take_left _ _
          · rw [← h]
            exact ih (seedOf O (a :: t) ++ [s])

theorem seedBridge_getD (O : Nat) :
    ∀ l : List (List String), seedBridge O l → ∀ i, i + 1 < l.length →
      (l.getD (i + 1) []).take (seedOf O (l.getD i [])).length
        = seedOf O (l.getD i []) := by
  intro l
  induction l with
  | nil =>
    intro _ i hi
    simp at hi
  | cons a l ih =>
    intro hb i hi
    cases l with
    | nil => simp at hi
    | cons b t =>
      cases i with
      | zero => exact hb.1
      | succ j =>
        have hj := ih hb.2 j (by simpa using hi)
        simpa using hj

/-- C2 counterexample: with `length = 10`, `overlap = 3` and sentences of
2, 2 and 11 words, the 11-word sentence exceeds the length budget while the
chunk under construction is non-empty; after the close, the new chunk is
seeded with the 2-word overlap sentence and then receives the oversized
sentence, so the oversized sentence is emitted together with the seed, not
alone. -/
theorem sentence_boundary_cex :
    ¬ (∀ c ∈ splitSentences 10 3 [] ["a b", "c d", "c c c c c c c c c c c"],
        ∀ s ∈ c, 10 < wc s → c = [s]) := by
  intro h
  exact absurd
    (h ["c d", "c c c c c c c c c c c"] (by decide)
      "c c c c c c c c c c c" (by decide) (by decide))
    (by decide)

/-- C2 (amended): in boundary-respecting mode, every emitted chunk is a
contiguous block of whole sentences of the input sentence sequence (no chunk
boundary falls strictly inside a sentence); a sentence whose word count
exceeds `length` is never truncated, and it is emitted alone as one
over-length chunk whenever the chunk under construction is empty — in
particular always when `overlap = 0`, and always when it is the only
sentence (so a single 150-word sentence with `split_length = 100` yields
exactly one chunk of 150 words). -/
theorem sentence_boundary_respected (L O : Nat) (sents : List String) :
    (∀ c ∈ splitSentences L O [] sents, ∃ p q, sents = p ++ c ++ q)
    ∧ (O = 0 → ∀ c ∈ splitSentences L 0 [] sents, ∀ s ∈ c, L < wc s → c = [s])
    ∧ (∀ s : String, L < wc s → splitSentences L O [] [s] = [[s]]) := by
  refine ⟨fun c hc => ?_,
    fun _ c hc s hs hbig => ss_alone_zero L sents [] (by simp) c hc s hs hbig,
    fun s _ => ss_single L O s⟩
  obtain ⟨p, q, hpq⟩ := ss_mem_block L O sents [] c hc
  rw [List.nil_append] at hpq
  exact ⟨p, q, hpq⟩

theorem sentence_boundary_respected_witness :
    (∃ p q, ["a b", "c d", "e f"] = p ++ ["a b", "c d"] ++ q)
    ∧ splitSentences 3 1 [] ["a a a a"] = [["a a a a"]] := by
  constructor
  · exact (sentence_boundary_respected 4 1 ["a b", "c d", "e f"]).1 ["a b", "c d"] (by decide)
  · exact (sentence_boundary_respected 3 1 ["a a a a"]).2.2 "a a a a" (by decide)

/-- C9: in boundary-respecting mode with a valid config, the overlap seed of
every chunk is a trailing segment of that chunk whose cumulative word count
is at most `overlap` and is the largest such value over all trailing
segments (no sentence is split to hit the target); with `overlap = 0` the
seed is always empty (no seeding); and in the emitted chunk sequence every
chunk after the first begins with exactly the seed of its predecessor. -/
theorem overlap_seeding (L O : Nat) (sents : List String) (hO : O < L) :
    (∀ chunk : List String,
        (∃ u, chunk = u ++ seedOf O chunk)
        ∧ wcOf (seedOf O chunk) ≤ O
        ∧ ∀ n, wcOf (chunk.drop n) ≤ O → wcOf (chunk.drop n) ≤ wcOf (seedOf O chunk))
    ∧ (O = 0 → ∀ chunk : List String, seedOf O chunk = [])
    ∧ seedBridge O (splitSentences L O [] sents)
    ∧ (∀ i, i + 1 < (splitSentences L O [] sents).length →
        ((splitSentences L O [] sents).getD (i + 1) []).take
            (seedOf O ((splitSentences L O [] sents).getD i [])).length
          = seedOf O ((splitSentences L O [] sents).getD i [])) :=
  ⟨fun chunk => ⟨seedOf_suffix O chunk, seedOf_wc_le O chunk,
      fun n h => seedOf_max O chunk n h⟩,
    fun h0 chunk => by rw [h0]; exact seedOf_zero chunk,
    ss_seedBridge L O hO sents [],
    seedBridge_getD O _ (ss_seedBridge L O hO sents [])⟩

theorem overlap_seeding_witness :
    wcOf (seedOf 3 ["a b", "c d"]) ≤ 3
    ∧ ((splitSentences 10 3 [] ["a b", "c d", "c c c c c c c c c c c"]).getD 1 []).take
          (seedOf 3 ((splitSentences 10 3 [] ["a b", "c d", "c c c c c c c c c c c"]).getD 0 [])).length
        = seedOf 3 ((splitSentences 10 3 [] ["a b", "c d", "c c c c c c c c c c c"]).getD 0 []) := by
  have h := overlap_seeding 10 3 ["a b", "c d", "c c c c c c c c c c c"] (by decide)
  exact ⟨(h.1 ["a b", "c d"]).2.1, h.2.2.2 0 (by decide)⟩

/-! ### The assembled pipeline -/

theorem flatten_range_take (words : List String) (L : Nat) :
    ∀ n : Nat,
      ((List.range n).map (fun i => (words.drop (i * L)).take L)).flatten
        = words.take (n * L) := by
  intro n
  induction n with
  | zero => simp
  | succ m ih =>
    rw [List.range_succ, List.map_append, List.flatten_append, ih]
    simp only [List.map_cons, List.map_nil, List.flatten_cons, List.flatten_nil,
      List.append_nil]
    rw [Nat.succ_mul, List.take_add]

theorem flatten_splitWordsChunks (words : List String) (L : Nat) (hL : 0 < L) :
    (splitWordsChunks words L 0).flatten = words := by
  unfold splitWordsChunks
  rw [show L - 0 = L from rfl, flatten_range_take words L]
  apply List.take_of_length_le
  rcases Nat.lt_or_ge (((words.length + L - 1) / L) * L) words.length with hlt | hge
  · exact absurd ((lt_numChunks_iff words.length L _ hL).mpr hlt) (by omega)
  · exact hge

theorem mem_splitWordsChunks (words : List String) (L O : Nat)
    (hL : 0 < L) (hO : O < L) :
    ∀ p ∈ splitWordsChunks words L O, p ≠ [] ∧ ∀ w ∈ p, w ∈ words := by
  intro p hp
  unfold splitWordsChunks at hp
  obtain ⟨i, hi, rfl⟩ := List.mem_map.mp hp
  have hi' : i * (L - O) < words.length :=
    (lt_numChunks_iff words.length (L - O) i (by omega)).mp (List.mem_range.mp hi)
  constructor
  · intro hnil
    have := congrArg List.length hnil
    rw [List.length_take, List.length_drop] at this
    simp at this
    omega
  · intro w hw
    exact List.drop_subset _ _ (List.take_subset _ _ hw)

theorem normalize_empty (cc : CleanConfig) : normalize cc "" = "" := by
  obtain ⟨w, e, f⟩ := cc
  cases w <;> cases e <;> rfl

theorem process_eq (cc : CleanConfig) (cfg : SplitConfig) (doc : SourceDocument)
    (hL : 0 < cfg.length) (hO : cfg.overlap < cfg.length) :
    process cc cfg doc
      = .ok (assembleDoc doc
          (splitPieces cfg (normalize cc doc.text) (segment (normalize cc doc.text)))) := by
  unfold process split
  show Except.map (assembleDoc doc)
      (if cfg.length = 0 ∨ cfg.length ≤ cfg.overlap then Except.error SplitError.configError
       else Except.ok (splitPieces cfg (normalize cc doc.text)
         (segment (normalize cc doc.text))))
    = _
  rw [if_neg (by omega)]
  rfl

/-- C4: with `overlap = 0` and a valid config, the word sequence of the
chunk contents (rejoined with single spaces) equals the word sequence of the
normalized source text, for every document and both splitting modes: the
chunks partition the normalized text's words in order. -/
theorem reconstruction (cc : CleanConfig) (cfg : SplitConfig) (doc : SourceDocument)
    (hOv : cfg.overlap = 0) (hL : 0 < cfg.length) :
    ∀ recs, process cc cfg doc = .ok recs →
      tokenize (joinWords (recs.map OutputRecord.content))
        = tokenize (normalize cc doc.text) := by
  intro recs hrecs
  rw [process_eq cc cfg doc hL (by omega)] at hrecs
  have hr := Except.ok.inj hrecs
  subst hr
  by_cases hdoc : doc.text = ""
  · unfold assembleDoc
    rw [if_pos hdoc]
    show tokenize (joinWords [""]) = tokenize (normalize cc doc.text)
    rw [show joinWords [""] = "" from rfl, hdoc, normalize_empty cc]
  · unfold assembleDoc
    rw [if_neg hdoc]
    unfold splitPieces
    by_cases hmode : cfg.respectSentenceBoundary
    · rw [if_pos hmode]
      by_cases ht : normalize cc doc.text = ""
      · rw [ht]
        rfl
      · rw [show segment (normalize cc doc.text) = [normalize cc doc.text] by
              simp [segment, ht],
            ss_single]
        show tokenize (joinWords [joinAll [normalize cc doc.text]]) = _
        rw [show joinAll [normalize cc doc.text] = normalize cc doc.text from rfl,
            show joinWords [normalize cc doc.text] = normalize cc doc.text from rfl]
    · rw [if_neg hmode, hOv]
      rw [List.map_map, List.map_map]
      show tokenize (joinWords
          ((splitWordsChunks (tokenize (normalize cc doc.text)) cfg.length 0).map
            joinWords)) = _
      rw [joinWords_flatten _ (fun p hp =>
            (mem_splitWordsChunks (tokenize (normalize cc doc.text)) cfg.length 0 hL
              (by omega) p hp).1),
          flatten_splitWordsChunks (tokenize (normalize cc doc.text)) cfg.length hL]
      exact tokenize_joinWords_tokenize (normalize cc doc.text)

theorem reconstruction_witness :
    tokenize (joinWords
        ([({ content := "a b", meta := [] } : OutputRecord)].map OutputRecord.content))
      = tokenize (normalize ⟨false, false, false⟩ "a b") :=
  reconstruction ⟨false, false, false⟩ ⟨2, 0, false⟩ ⟨"a b", []⟩ rfl (by decide)
    [⟨"a b", []⟩] (by decide)

/-- C5: `split` fails with `ConfigError` exactly when `overlap >= length` or
`length <= 0`; the check happens at call entry, so a bad config produces an
error and no chunks at all; for a valid config `split` is total and returns
the chunk sequence; `InputError` (reserved for malformed encodings, which
cannot arise for the always-valid strings of this model) is never
returned. -/
theorem config_validation (cfg : SplitConfig) (text : String) (sentences : List String) :
    (split cfg text sentences = .error .configError
      ↔ (cfg.length = 0 ∨ cfg.length ≤ cfg.overlap))
    ∧ (0 < cfg.length ∧ cfg.overlap < cfg.length →
        split cfg text sentences = .ok (splitPieces cfg text sentences))
    ∧ split cfg text sentences ≠ .error .inputError := by
  by_cases h : cfg.length = 0 ∨ cfg.length ≤ cfg.overlap
  · rw [show split cfg text sentences = .error .configError by simp [split, h]]
    refine ⟨⟨fun _ => h, fun _ => rfl⟩, fun hv => ?_, by simp⟩
    exfalso
    omega
  · rw [show split cfg text sentences = .ok (splitPieces cfg text sentences) by
        simp [split, h]]
    refine ⟨⟨fun hx => ?_, fun hx => absurd hx h⟩, fun _ => rfl, by simp⟩
    exact absurd hx (by simp)

theorem config_validation_witness :
    split ⟨0, 0, false⟩ "x" [] = .error .configError
    ∧ split ⟨2, 0, false⟩ "x y z" [] = .ok (splitPieces ⟨2, 0, false⟩ "x y z" []) :=
  ⟨(config_validation ⟨0, 0, false⟩ "x" []).1.mpr (Or.inl rfl),
    (config_validation ⟨2, 0, false⟩ "x y z" []).2.1 ⟨by decide, by decide⟩⟩

/-- C6: `normalize` with `clean_empty_lines = true` collapses every run of
`k >= 3` consecutive empty lines to exactly 2 empty lines, leaves every run
of 0 to 2 empty lines unchanged, and changes nothing else: over an arbitrary
decomposition of the text into alternating empty-line runs and non-empty
lines, each run length `k` becomes `min k 2` and all other lines are
preserved in order. -/
theorem clean_empty_lines_runs (rs : List (Nat × String)) (t : Nat)
    (h1 : ∀ p ∈ rs, p.2 ≠ "")
    (h2 : ∀ p ∈ rs, ∀ c ∈ p.2.data, c ≠ '\n')
    (h3 : rs ≠ [] ∨ 0 < t) :
    normalize ⟨false, true, false⟩ (joinLines (buildLines rs t))
      = joinLines (buildLines (rs.map fun p => (min p.1 2, p.2)) (min t 2)) := by
  show joinLines (collapseEmpty 0 (linesOf (joinLines (buildLines rs t)))) = _
  rw [linesOf_joinLines _ (buildLines_ne_nil rs t h3) (buildLines_no_nl rs t h2),
      collapseEmpty_buildLines rs t h1]

theorem clean_empty_lines_runs_witness :
    normalize ⟨false, true, false⟩ (joinLines (buildLines [(0, "a"), (5, "b")] 0))
      = joinLines (buildLines ([(0, "a"), (5, "b")].map fun p => (min p.1 2, p.2))
          (min 0 2)) :=
  clean_empty_lines_runs [(0, "a"), (5, "b")] 0 (by decide) (by decide)
    (Or.inl (by decide))

/-- C7: the pipeline `normalize -> segment -> split -> assemble` is
deterministic: two runs on identical inputs (same cleaning config, same
split config, same document) produce identical output chunk sequences — the
computation is a pure function with no randomness or order dependence. -/
theorem pipeline_deterministic (cc1 cc2 : CleanConfig) (cfg1 cfg2 : SplitConfig)
    (d1 d2 : SourceDocument) (h1 : cc1 = cc2) (h2 : cfg1 = cfg2) (h3 : d1 = d2) :
    process cc1 cfg1 d1 = process cc2 cfg2 d2 := by
  subst h1
  subst h2
  subst h3
  rfl

theorem pipeline_deterministic_witness :
    process {} {} ⟨"a b. c", []⟩ = process {} {} ⟨"a b. c", []⟩ :=
  pipeline_deterministic {} {} {} {} ⟨"a b. c", []⟩ ⟨"a b. c", []⟩ rfl rfl rfl

/-- C8: for every valid config, an empty source document yields exactly one
output record, whose content is empty; and a non-empty source document never
yields a record with empty content. -/
theorem empty_chunk_policy (cc : CleanConfig) (cfg : SplitConfig) (doc : SourceDocument)
    (hL : 0 < cfg.length) (hO : cfg.overlap < cfg.length) :
    (doc.text = "" → process cc cfg doc = .ok [{ content := "", meta := doc.meta }])
    ∧ (doc.text ≠ "" → ∀ recs, process cc cfg doc = .ok recs →
        ∀ r ∈ recs, r.content ≠ "") := by
  constructor
  · intro he
    rw [process_eq cc cfg doc hL hO]
    unfold assembleDoc
    rw [if_pos he]
  · intro he recs hrecs r hr
    rw [process_eq cc cfg doc hL hO] at hrecs
    have hrec := Except.ok.inj hrecs
    subst hrec
    unfold assembleDoc at hr
    rw [if_neg he] at hr
    obtain ⟨c, hc, rfl⟩ := List.mem_map.mp hr
    show c.content ≠ ""
    unfold splitPieces at hc
    by_cases hmode : cfg.respectSentenceBoundary
    · rw [if_pos hmode] at hc
      obtain ⟨p, hp, rfl⟩ := List.mem_map.mp hc
      by_cases ht : normalize cc doc.text = ""
      · rw [ht] at hp
        simp [segment, splitSentences] at hp
      · rw [show segment (normalize cc doc.text) = [normalize cc doc.text] by
              simp [segment, ht]] at hp
        rcases List.mem_singleton.mp (by rwa [ss_single] at hp) with rfl
        show joinAll [normalize cc doc.text] ≠ ""
        rw [show joinAll [normalize cc doc.text] = normalize cc doc.text from rfl]
        exact ht
    · rw [if_neg hmode] at hc
      obtain ⟨p, hp, rfl⟩ := List.mem_map.mp hc
      have hmem := mem_splitWordsChunks (tokenize (normalize cc doc.text))
        cfg.length cfg.overlap hL hO p hp
      obtain ⟨w, ws, rfl⟩ := List.exists_cons_of_ne_nil hmem.1
      show joinWords (w :: ws) ≠ ""
      exact joinWords_ne_empty w ws
        (words_of_tokenize (normalize cc doc.text) w (hmem.2 w (by simp))).1

theorem empty_chunk_policy_witness :
    process {} {} ⟨"", []⟩ = .ok [{ content := "", meta := [] }] :=
  (empty_chunk_policy {} {} ⟨"", []⟩ (by decide) (by decide)).1 rfl

/-- C10: every configuration field has a default: a split configuration
given only `respectSentenceBoundary` and a cleaning configuration given no
fields are accepted (the defaults fill in `length = 100`, `overlap = 0` and
the default cleaning flags), and `process` on any single document succeeds,
returning an ordered, indexable list of records each exposing its chunk
text in the string field `content`. -/
theorem default_config (doc : SourceDocument) :
    ({ respectSentenceBoundary := false } : SplitConfig).length = 100
    ∧ ({ respectSentenceBoundary := false } : SplitConfig).overlap = 0
    ∧ ({} : CleanConfig).cleanWhitespace = true
    ∧ ∃ recs, process {} { respectSentenceBoundary := false } doc = .ok recs :=
  ⟨rfl, rfl, rfl,
    ⟨_, process_eq {} { respectSentenceBoundary := false } doc (by decide) (by decide)⟩⟩

theorem default_config_witness :
    ∃ recs, process {} { respectSentenceBoundary := false } ⟨"hello world", []⟩
      = .ok recs :=
  (default_config ⟨"hello world", []⟩).2.2.2

end Haystack
